import Mathlib

/-!
Verification development for the anime-renamer repository.

The filename semantic parser (`src/parser/mod.rs`, `src/parser/matchers.rs`)
and the episode-to-season resolver (`src/main.rs`) are embedded shallowly:
strings are `List Char`, spans are byte offsets (accumulated via
`Char.utf8Size`, matching the byte offsets the Rust `regex` crate reports),
and each regex of the source is hand-translated into a deterministic scanner
with leftmost-first semantics.  All the regexes of the source combine
character classes that are disjoint from what follows them, so greedy
maximal-munch scanning coincides with the backtracking semantics of the
`regex` crate; alternations are tried in the written order (the crate's
leftmost-first rule).

Documented approximations of the Unicode tables used by the `regex` crate:
`\d` is modelled as ASCII `0-9` (a non-ASCII decimal digit would make the
source's `parse::<u32>` fail and the matcher decline; no claim depends on
non-ASCII digits), `\s` and `char::is_whitespace` are modelled by the full
Unicode `White_Space` code-point list, and word characters (for `\b`) are
modelled as ASCII alphanumerics, `_`, and all non-ASCII code points (the
CJK letters appearing in the repository's filenames are word characters).
-/

namespace AnimeRenamer

/-- Unicode `White_Space` code points, as used by Rust's `char::is_whitespace`
and the `regex` crate's `\s` class. -/
def rustIsWhitespace (c : Char) : Bool :=
  (0x9 ≤ c.toNat && c.toNat ≤ 0xD) || c.toNat = 0x20 || c.toNat = 0x85 ||
  c.toNat = 0xA0 || c.toNat = 0x1680 ||
  (0x2000 ≤ c.toNat && c.toNat ≤ 0x200A) ||
  c.toNat = 0x2028 || c.toNat = 0x2029 || c.toNat = 0x202F ||
  c.toNat = 0x205F || c.toNat = 0x3000

/-- Word character for the `\b` assertion: ASCII alphanumeric, underscore, or
any non-ASCII code point (approximating the Unicode word class; see the
header comment). -/
def wordChar (c : Char) : Bool :=
  c.isAlphanum || c = '_' || 0x80 ≤ c.toNat

/-- ASCII lower-casing, modelling the effect of `(?i)` on the ASCII literals
appearing in the source's patterns. -/
def lowerCh (c : Char) : Char := c.toLower

/-- The `\d` class, modelled as ASCII `0-9` (see the header comment). -/
def isDigitCh (c : Char) : Bool := 48 ≤ c.toNat && c.toNat ≤ 57

/-- Total UTF-8 byte length of a character list (Rust string offsets are in
bytes). -/
def utf8Len (cs : List Char) : Nat := (cs.map Char.utf8Size).sum

/-- Numeric value of a list of ASCII digits, as `str::parse::<u32>` computes
it (no digit list produced by a matcher exceeds 4 digits, so no overflow
occurs and the `u32` is modelled by `Nat`). -/
def digitsVal (ds : List Char) : Nat :=
  ds.foldl (fun a c => 10 * a + (c.toNat - 48)) 0

/-- Munch up to `k` leading ASCII digits, returning them and the rest:
the greedy matching of `\d{1,k}`. -/
def takeDigitsUpTo : Nat → List Char → List Char × List Char
  | 0, cs => ([], cs)
  | _ + 1, [] => ([], [])
  | k + 1, c :: cs =>
    if isDigitCh c then
      let p := takeDigitsUpTo k cs
      (c :: p.1, p.2)
    else ([], c :: cs)

theorem takeDigitsUpTo_append (k : Nat) (cs : List Char) :
    (takeDigitsUpTo k cs).1 ++ (takeDigitsUpTo k cs).2 = cs := by
  induction k generalizing cs with
  | zero => simp [takeDigitsUpTo]
  | succ k ih =>
    cases cs with
    | nil => simp [takeDigitsUpTo]
    | cons c cs =>
      by_cases h : isDigitCh c <;> simp [takeDigitsUpTo, h, ih]

theorem takeDigitsUpTo_length (k : Nat) (cs : List Char) :
    (takeDigitsUpTo k cs).1.length ≤ k := by
  induction k generalizing cs with
  | zero => simp [takeDigitsUpTo]
  | succ k ih =>
    cases cs with
    | nil => simp [takeDigitsUpTo]
    | cons c cs =>
      by_cases h : isDigitCh c <;> simp [takeDigitsUpTo, h]
      exact ih cs

theorem takeDigitsUpTo_digits (k : Nat) (cs : List Char) :
    ∀ c ∈ (takeDigitsUpTo k cs).1, isDigitCh c := by
  induction k generalizing cs with
  | zero => simp [takeDigitsUpTo]
  | succ k ih =>
    cases cs with
    | nil => simp [takeDigitsUpTo]
    | cons c cs =>
      by_cases h : isDigitCh c <;> simp [takeDigitsUpTo, h]
      exact ih cs

theorem digitsVal_aux_lt (ds : List Char) (hds : ∀ c ∈ ds, isDigitCh c) :
    ∀ a : Nat, ds.foldl (fun a c => 10 * a + (c.toNat - 48)) a < (a + 1) * 10 ^ ds.length := by
  induction ds with
  | nil => intro a; simp
  | cons c ds ih =>
    intro a
    have hc : c.toNat - 48 ≤ 9 := by
      have := hds c (by simp)
      simp only [isDigitCh, Bool.and_eq_true, decide_eq_true_eq] at this
      omega
    have h1 : 10 * a + (c.toNat - 48) + 1 ≤ (a + 1) * 10 := by omega
    have h2 := ih (fun d hd => hds d (by simp [hd])) (10 * a + (c.toNat - 48))
    calc List.foldl (fun a c => 10 * a + (c.toNat - 48)) (10 * a + (c.toNat - 48)) ds
        < (10 * a + (c.toNat - 48) + 1) * 10 ^ ds.length := h2
      _ ≤ ((a + 1) * 10) * 10 ^ ds.length :=
          Nat.mul_le_mul_right _ h1
      _ = (a + 1) * 10 ^ (ds.length + 1) := by ring
      _ = (a + 1) * 10 ^ (c :: ds).length := by simp

theorem digitsVal_lt (ds : List Char) (hds : ∀ c ∈ ds, isDigitCh c) :
    digitsVal ds < 10 ^ ds.length := by
  have := digitsVal_aux_lt ds hds 0
  simpa [digitsVal] using this

/-- Value bound for a munched digit group: `\d{1,k}` parses below `10 ^ k`. -/
theorem digitsVal_takeDigitsUpTo_lt (k : Nat) (cs : List Char) :
    digitsVal (takeDigitsUpTo k cs).1 < 10 ^ k := by
  have h1 := digitsVal_lt (takeDigitsUpTo k cs).1 (takeDigitsUpTo_digits k cs)
  exact lt_of_lt_of_le h1 (Nat.pow_le_pow_right (by norm_num) (takeDigitsUpTo_length k cs))

/-! ## The episode-to-season resolver (`map_episode_to_season`, src/main.rs) -/

/-- A TMDB season descriptor (`tmdb::Season`), restricted to the fields the
resolver reads. -/
structure Season where
  season_number : Nat
  episode_count : Nat
  deriving DecidableEq, Repr

/-- Loop body of `map_episode_to_season` with the running `accumulated`
total made explicit. -/
def mapEpisodeGo (episodeNum : Nat) : Nat → List Season → Option (Nat × Nat)
  | _, [] => none
  | accumulated, season :: rest =>
    if season.season_number = 0 then
      mapEpisodeGo episodeNum accumulated rest
    else if episodeNum ≤ accumulated + season.episode_count then
      some (season.season_number, episodeNum - accumulated)
    else
      mapEpisodeGo episodeNum (accumulated + season.episode_count) rest

/-- `map_episode_to_season` from src/main.rs: maps an absolute episode number
onto a `(season, local episode)` pair using cumulative episode counts,
skipping descriptors whose `season_number` is 0. -/
def mapEpisodeToSeason (episodeNum : Nat) (seasons : List Season) : Option (Nat × Nat) :=
  mapEpisodeGo episodeNum 0 seasons

/-- Resolver loop exactly as the specification's words describe it (no
season-0 handling of any kind): maintain `accumulated`, return at the first
season whose cumulative count reaches the absolute episode. -/
def resolverClaimLoop (episodeNum : Nat) : Nat → List Season → Option (Nat × Nat)
  | _, [] => none
  | accumulated, season :: rest =>
    if episodeNum ≤ accumulated + season.episode_count then
      some (season.season_number, episodeNum - accumulated)
    else
      resolverClaimLoop episodeNum (accumulated + season.episode_count) rest

theorem mapEpisodeGo_eq_filter (episodeNum : Nat) (ss : List Season) :
    ∀ acc, mapEpisodeGo episodeNum acc ss =
      resolverClaimLoop episodeNum acc (ss.filter (fun s => s.season_number ≠ 0)) := by
  induction ss with
  | nil => intro acc; rfl
  | cons s rest ih =>
    intro acc
    by_cases h : s.season_number = 0
    · simp [mapEpisodeGo, h, List.filter, ih]
    · by_cases h2 : episodeNum ≤ acc + s.episode_count <;>
        simp [mapEpisodeGo, h, h2, List.filter, resolverClaimLoop, ih]

/-- C1 theorem (amended): the resolver runs the accumulated-total loop of the
specification, but over the input with season-0 descriptors skipped; the
three concrete resolutions of the specification hold. -/
theorem resolver_accumulation_skips_season_zero :
    (∀ episodeNum seasons, mapEpisodeToSeason episodeNum seasons =
      resolverClaimLoop episodeNum 0 (seasons.filter (fun s => s.season_number ≠ 0))) ∧
    mapEpisodeToSeason 1 [⟨1, 12⟩, ⟨2, 12⟩] = some (1, 1) ∧
    mapEpisodeToSeason 13 [⟨1, 12⟩, ⟨2, 12⟩] = some (2, 1) ∧
    mapEpisodeToSeason 25 [⟨1, 12⟩, ⟨2, 12⟩] = none := by
  refine ⟨fun episodeNum seasons => mapEpisodeGo_eq_filter episodeNum seasons 0, ?_, ?_, ?_⟩ <;> decide

/-- C1 counterexample: on a list containing a season-0 descriptor the code
does not return the first season satisfying the cumulative condition (the
claim's loop would yield `(0, 3)` on `resolve(3, [(0,5)])`; the code skips
the descriptor and reports unresolvable). -/
theorem resolver_claim_fails_on_season_zero :
    mapEpisodeToSeason 3 [⟨0, 5⟩] = none ∧
    resolverClaimLoop 3 0 [⟨0, 5⟩] = some (0, 3) := by decide

/-- C6 counterexample: a descriptor with `season_number = 0` is not treated
like any other entry; the code skips it (`continue`) while the claim's
uniform loop would resolve into it. -/
theorem resolver_special_cases_season_zero :
    mapEpisodeToSeason 5 [⟨0, 12⟩, ⟨1, 12⟩] = some (1, 5) ∧
    resolverClaimLoop 5 0 [⟨0, 12⟩, ⟨1, 12⟩] = some (0, 5) := by decide

/-- C6 theorem (amended): the resolver special-cases season 0 by skipping
such descriptors entirely — it behaves on every input exactly as it behaves
on the input with season-0 descriptors pre-filtered away. -/
theorem resolver_skips_season_zero_like_prefilter :
    ∀ episodeNum seasons, mapEpisodeToSeason episodeNum seasons =
      mapEpisodeToSeason episodeNum (seasons.filter (fun s => s.season_number ≠ 0)) := by
  intro episodeNum seasons
  have h1 := mapEpisodeGo_eq_filter episodeNum seasons 0
  have h2 := mapEpisodeGo_eq_filter episodeNum (seasons.filter (fun s => s.season_number ≠ 0)) 0
  rw [mapEpisodeToSeason, mapEpisodeToSeason, h1, h2, List.filter_filter]
  simp

/-! ## Pattern matchers (src/parser/matchers.rs)

Each `*Att` function is the anchored form of one source regex: applied at a
suffix of the text (with `pos` the byte offset of that suffix), it either
matches there or declines.  `scanLeftmost` turns an anchored form into the
`Regex::captures` leftmost search. -/

/-- A `MatchResult` (src/parser/matchers.rs): numeric value, the matched text
(capture group 0), and the byte span of the numeric capture group. -/
structure MatchResult where
  value : Nat
  matchedText : List Char
  startPos : Nat
  endPos : Nat
  deriving DecidableEq, Repr

/-- Leftmost search: try the anchored pattern at every position, left to
right, advancing the byte offset by each skipped character's UTF-8 size. -/
def scanLeftmost (att : Nat → List Char → Option MatchResult) : Nat → List Char → Option MatchResult
  | _, [] => none
  | pos, c :: rest =>
    match att pos (c :: rest) with
    | some r => some r
    | none => scanLeftmost att (pos + c.utf8Size) rest

theorem scanLeftmost_prop {P : MatchResult → Prop}
    (att : Nat → List Char → Option MatchResult)
    (hatt : ∀ pos s r, att pos s = some r → P r) :
    ∀ pos cs r, scanLeftmost att pos cs = some r → P r := by
  intro pos cs
  induction cs generalizing pos with
  | nil => intro r h; simp [scanLeftmost] at h
  | cons c rest ih =>
    intro r h
    simp only [scanLeftmost] at h
    cases hc : att pos (c :: rest) with
    | some r0 => rw [hc] at h; cases h; exact hatt pos (c :: rest) r hc
    | none => rw [hc] at h; exact ih (pos + c.utf8Size) r h

theorem scanLeftmost_text
    (att : Nat → List Char → Option MatchResult)
    (hatt : ∀ pos s r, att pos s = some r → ∃ rest, s = r.matchedText ++ rest) :
    ∀ pos cs r, scanLeftmost att pos cs = some r →
      ∃ pre rest, cs = pre ++ r.matchedText ++ rest := by
  intro pos cs
  induction cs generalizing pos with
  | nil => intro r h; simp [scanLeftmost] at h
  | cons c rest ih =>
    intro r h
    simp only [scanLeftmost] at h
    cases hc : att pos (c :: rest) with
    | some r0 =>
      rw [hc] at h; cases h
      obtain ⟨tail, htail⟩ := hatt pos (c :: rest) r hc
      exact ⟨[], tail, by simpa using htail⟩
    | none =>
      rw [hc] at h
      obtain ⟨pre, tail, htail⟩ := ih (pos + c.utf8Size) r h
      exact ⟨c :: pre, tail, by simp [htail]⟩

/-- Anchored `[Ss](\d{1,2})(?:\s|[\]\[]|$)` (SeasonNumberMatcher). -/
def seasonNumberAtt (pos : Nat) : List Char → Option MatchResult
  | [] => none
  | c :: rest =>
    if c = 'S' ∨ c = 's' then
      match takeDigitsUpTo 2 rest with
      | ([], _) => none
      | (ds, rest2) =>
        match rest2 with
        | [] => some ⟨digitsVal ds, c :: ds, pos + 1, pos + 1 + utf8Len ds⟩
        | d :: _ =>
          if rustIsWhitespace d ∨ d = ']' ∨ d = '[' then
            some ⟨digitsVal ds, c :: (ds ++ [d]), pos + 1, pos + 1 + utf8Len ds⟩
          else none
    else none

/-- Anchored `[Ss]eason\s*(\d{1,2})` (SeasonWordMatcher); only the leading
letter is case-insensitive in the source pattern. -/
def seasonWordAtt (pos : Nat) : List Char → Option MatchResult
  | [] => none
  | c :: rest =>
    if (c = 'S' ∨ c = 's') ∧ rest.take 5 = ['e', 'a', 's', 'o', 'n'] then
      let afterLit := rest.drop 5
      let sp := afterLit.takeWhile rustIsWhitespace
      let rest2 := afterLit.dropWhile rustIsWhitespace
      match takeDigitsUpTo 2 rest2 with
      | ([], _) => none
      | (ds, _) =>
        let dstart := pos + 6 + utf8Len sp
        some ⟨digitsVal ds, c :: (['e', 'a', 's', 'o', 'n'] ++ sp ++ ds), dstart, dstart + utf8Len ds⟩
    else none

/-- Anchored `第\s*(\d{1,2})\s*季` (ChineseSeasonMatcher). -/
def chineseSeasonAtt (pos : Nat) : List Char → Option MatchResult
  | [] => none
  | c :: rest =>
    if c = '第' then
      let sp1 := rest.takeWhile rustIsWhitespace
      let r1 := rest.dropWhile rustIsWhitespace
      match takeDigitsUpTo 2 r1 with
      | ([], _) => none
      | (ds, r2) =>
        let sp2 := r2.takeWhile rustIsWhitespace
        match r2.dropWhile rustIsWhitespace with
        | d :: _ =>
          if d = '季' then
            let dstart := pos + '第'.utf8Size + utf8Len sp1
            some ⟨digitsVal ds, c :: (sp1 ++ ds ++ sp2 ++ [d]), dstart, dstart + utf8Len ds⟩
          else none
        | [] => none
    else none

/-- Characters of the `[IVX]` class. -/
def isRomanChar (c : Char) : Bool := c = 'I' || c = 'V' || c = 'X'

/-- The `roman_to_number` table of RomanSeasonMatcher (the captured run only
contains the upper-case letters `I`, `V`, `X`, so the source's
`to_uppercase` is the identity on it). -/
def romanToNumber (cs : List Char) : Option Nat :=
  if cs = ['I'] then some 1
  else if cs = ['I', 'I'] then some 2
  else if cs = ['I', 'I', 'I'] then some 3
  else if cs = ['I', 'V'] then some 4
  else if cs = ['V'] then some 5
  else if cs = ['V', 'I'] then some 6
  else if cs = ['V', 'I', 'I'] then some 7
  else if cs = ['V', 'I', 'I', 'I'] then some 8
  else if cs = ['I', 'X'] then some 9
  else if cs = ['X'] then some 10
  else none

/-- Leftmost search for `\b([IVX]+)\b`: the word-boundary before the run is
checked against the previous character, the one after it against the first
character following the run. -/
def boundaryBefore : Option Char → Bool
  | none => true
  | some p => !wordChar p

def romanFindGo : Option Char → Nat → List Char → Option (Nat × List Char)
  | _, _, [] => none
  | prev, pos, c :: rest =>
    if isRomanChar c && boundaryBefore prev then
      let run := (c :: rest).takeWhile isRomanChar
      match (c :: rest).dropWhile isRomanChar with
      | [] => some (pos, run)
      | d :: _ => if wordChar d then romanFindGo (some c) (pos + c.utf8Size) rest else some (pos, run)
    else romanFindGo (some c) (pos + c.utf8Size) rest

/-- `RomanSeasonMatcher::try_match`: find the first `\b([IVX]+)\b`; the
roman-table lookup and the extra preceding-character check are applied to
that single candidate (a failure of either yields no match at all).  The
extra check indexes `chars()` with the saturated byte offset `start - 1`,
exactly as the source does. -/
def romanTryMatch (text : List Char) : Option MatchResult :=
  match romanFindGo none 0 text with
  | none => none
  | some (pos, run) =>
    match romanToNumber run with
    | none => none
    | some v =>
      let beforeOk : Bool := pos == 0 ||
        (match text.get? (pos - 1) with
         | some ch => rustIsWhitespace ch || ch == '[' || ch == ']'
         | none => false)
      if beforeOk then some ⟨v, run, pos, pos + utf8Len run⟩ else none

/-- Anchored `[Ss](\d{1,2})[Ee](\d{1,4})` (SxEyMatcher); the value and span
come from the second capture group (the episode digits). -/
def sxEyAtt (pos : Nat) : List Char → Option MatchResult
  | [] => none
  | c :: rest =>
    if c = 'S' ∨ c = 's' then
      match takeDigitsUpTo 2 rest with
      | ([], _) => none
      | (ds1, r1) =>
        match r1 with
        | [] => none
        | e :: r2 =>
          if e = 'E' ∨ e = 'e' then
            match takeDigitsUpTo 4 r2 with
            | ([], _) => none
            | (ds2, _) =>
              let gstart := pos + 1 + utf8Len ds1 + 1
              some ⟨digitsVal ds2, c :: (ds1 ++ e :: ds2), gstart, gstart + utf8Len ds2⟩
          else none
    else none

/-- Anchored `第\s*(\d{1,4})\s*(?:集|话|話)` (ChineseEpisodeMatcher). -/
def chineseEpisodeAtt (pos : Nat) : List Char → Option MatchResult
  | [] => none
  | c :: rest =>
    if c = '第' then
      let sp1 := rest.takeWhile rustIsWhitespace
      let r1 := rest.dropWhile rustIsWhitespace
      match takeDigitsUpTo 4 r1 with
      | ([], _) => none
      | (ds, r2) =>
        let sp2 := r2.takeWhile rustIsWhitespace
        match r2.dropWhile rustIsWhitespace with
        | d :: _ =>
          if d = '集' ∨ d = '话' ∨ d = '話' then
            let dstart := pos + '第'.utf8Size + utf8Len sp1
            some ⟨digitsVal ds, c :: (sp1 ++ ds ++ sp2 ++ [d]), dstart, dstart + utf8Len ds⟩
          else none
        | [] => none
    else none

/-- Anchored `[Ee][Pp]\s*(\d{1,4})` (EpMatcher). -/
def epAtt (pos : Nat) : List Char → Option MatchResult
  | c1 :: c2 :: rest =>
    if (c1 = 'E' ∨ c1 = 'e') ∧ (c2 = 'P' ∨ c2 = 'p') then
      let sp := rest.takeWhile rustIsWhitespace
      let r1 := rest.dropWhile rustIsWhitespace
      match takeDigitsUpTo 4 r1 with
      | ([], _) => none
      | (ds, _) =>
        let dstart := pos + 2 + utf8Len sp
        some ⟨digitsVal ds, c1 :: c2 :: (sp ++ ds), dstart, dstart + utf8Len ds⟩
    else none
  | _ => none

/-- Anchored `[Ee](\d{1,4})(?:\D|$)` (EMatcher); the non-digit terminator is
part of capture group 0 when present. -/
def eAtt (pos : Nat) : List Char → Option MatchResult
  | [] => none
  | c :: rest =>
    if c = 'E' ∨ c = 'e' then
      match takeDigitsUpTo 4 rest with
      | ([], _) => none
      | (ds, r2) =>
        match r2 with
        | [] => some ⟨digitsVal ds, c :: ds, pos + 1, pos + 1 + utf8Len ds⟩
        | d :: _ =>
          if isDigitCh d then none
          else some ⟨digitsVal ds, c :: (ds ++ [d]), pos + 1, pos + 1 + utf8Len ds⟩
    else none

/-- Anchored `\[(\d{1,4})\]` (BracketEpisodeMatcher). -/
def bracketEpisodeAtt (pos : Nat) : List Char → Option MatchResult
  | [] => none
  | c :: rest =>
    if c = '[' then
      match takeDigitsUpTo 4 rest with
      | ([], _) => none
      | (ds, r2) =>
        match r2 with
        | d :: _ =>
          if d = ']' then
            some ⟨digitsVal ds, c :: (ds ++ [d]), pos + 1, pos + 1 + utf8Len ds⟩
          else none
        | [] => none
    else none

/-- Anchored `_[Ss](\d{1,4})` (UnderscoreSMatcher). -/
def underscoreSAtt (pos : Nat) : List Char → Option MatchResult
  | u :: c :: rest =>
    if u = '_' ∧ (c = 'S' ∨ c = 's') then
      match takeDigitsUpTo 4 rest with
      | ([], _) => none
      | (ds, _) =>
        some ⟨digitsVal ds, u :: c :: ds, pos + 2, pos + 2 + utf8Len ds⟩
    else none
  | _ => none

/-- Characters of the `[\s\-_\.：:]` delimiter class. -/
def isDelimCh (c : Char) : Bool :=
  rustIsWhitespace c || c == '-' || c == '_' || c == '.' || c == '：' || c == ':'

/-- Anchored `[\s\-_\.：:]+(\d{1,4})(?:\D|$)` (DelimiterEpisodeMatcher). -/
def delimiterAtt (pos : Nat) (s : List Char) : Option MatchResult :=
  let run := s.takeWhile isDelimCh
  let r1 := s.dropWhile isDelimCh
  if run = [] then none
  else
    match takeDigitsUpTo 4 r1 with
    | ([], _) => none
    | (ds, r2) =>
      let gstart := pos + utf8Len run
      match r2 with
      | [] => some ⟨digitsVal ds, run ++ ds, gstart, gstart + utf8Len ds⟩
      | d :: _ =>
        if isDigitCh d then none
        else some ⟨digitsVal ds, run ++ ds ++ [d], gstart, gstart + utf8Len ds⟩

/-! ## The matcher chain (MatcherChain, src/parser/matchers.rs) -/

/-- A boxed matcher of the chain: its `try_match` function, its fixed
priority and its diagnostic name. -/
structure MatcherFn where
  tryMatch : List Char → Option MatchResult
  priority : Nat
  name : String

/-- Insert a matcher after all entries of priority less than or equal to its
own: the position a stable sort gives to a newly appended element. -/
def orderedInsertP (m : MatcherFn) : List MatcherFn → List MatcherFn
  | [] => [m]
  | x :: xs => if m.priority < x.priority then m :: x :: xs else x :: orderedInsertP m xs

/-- The stable sort by priority (`Vec::sort_by_key` is stable, so its output
is this unique order-preserving rearrangement). -/
def sortByPriority (ms : List MatcherFn) : List MatcherFn :=
  ms.foldl (fun acc x => orderedInsertP x acc) []

/-- `MatcherChain::add_matcher`: push the matcher, then stably sort the
vector by priority. -/
def addMatcher (chain : List MatcherFn) (m : MatcherFn) : List MatcherFn :=
  sortByPriority (chain ++ [m])

/-- A chain built by repeated `add_matcher` calls starting from
`MatcherChain::new`. -/
def buildChain (ms : List MatcherFn) : List MatcherFn :=
  ms.foldl addMatcher []

/-- The strict interval-overlap test of `MatcherChain::execute`:
`result.start_pos < *end && result.end_pos > *start` for any exclusion. -/
def overlapsAny (r : MatchResult) (excl : List (Nat × Nat)) : Bool :=
  excl.any fun p => decide (r.startPos < p.2) && decide (p.1 < r.endPos)

/-- `MatcherChain::execute`: first matcher whose candidate match does not
overlap an exclusion wins; a matcher whose candidate is excluded is skipped
(it is not retried at other positions). -/
def executeChain : List MatcherFn → List Char → List (Nat × Nat) → Option MatchResult
  | [], _, _ => none
  | m :: rest, text, excl =>
    match m.tryMatch text with
    | some r => if overlapsAny r excl then executeChain rest text excl else some r
    | none => executeChain rest text excl

/-- The season chain of `FileParser::new`, in insertion order. -/
def seasonMatchers : List MatcherFn :=
  [⟨fun cs => scanLeftmost seasonNumberAtt 0 cs, 1, "SeasonNumber(S3)"⟩,
   ⟨fun cs => scanLeftmost seasonWordAtt 0 cs, 2, "SeasonWord(Season 3)"⟩,
   ⟨fun cs => scanLeftmost chineseSeasonAtt 0 cs, 3, "ChineseSeason(第3季)"⟩,
   ⟨romanTryMatch, 10, "RomanSeason(IV)"⟩]

/-- The episode chain of `FileParser::new`, in insertion order. -/
def episodeMatchers : List MatcherFn :=
  [⟨fun cs => scanLeftmost sxEyAtt 0 cs, 1, "SxEy(S01E12)"⟩,
   ⟨fun cs => scanLeftmost chineseEpisodeAtt 0 cs, 2, "ChineseEpisode(第01集)"⟩,
   ⟨fun cs => scanLeftmost epAtt 0 cs, 3, "Ep(EP01)"⟩,
   ⟨fun cs => scanLeftmost eAtt 0 cs, 4, "E(E220)"⟩,
   ⟨fun cs => scanLeftmost bracketEpisodeAtt 0 cs, 5, "Bracket([01])"⟩,
   ⟨fun cs => scanLeftmost underscoreSAtt 0 cs, 6, "UnderscoreS(_S001)"⟩,
   ⟨fun cs => scanLeftmost delimiterAtt 0 cs, 20, "Delimiter(- 04)"⟩]

def seasonChain : List MatcherFn := buildChain seasonMatchers

def episodeChain : List MatcherFn := buildChain episodeMatchers

/-! ## Anchored patterns used by `FileParser` (src/parser/mod.rs)

An anchored pattern receives the character preceding the current position
(for `\b`) and the current suffix, and returns the matched characters
(capture group 0) and the remaining suffix. -/

/-- Does `pat` occur at the very start of `s`? -/
def isStartSeg (pat s : List Char) : Bool := s.take pat.length = pat

/-- Does `pat` occur anywhere in the text (Rust `str::contains`)? -/
def containsSeg (pat : List Char) : List Char → Bool
  | [] => isStartSeg pat []
  | c :: rest => isStartSeg pat (c :: rest) || containsSeg pat rest

/-- Case-insensitive literal at the start of `s` (`lit` is given lower-case;
ASCII folding, see the header comment).  Returns the original matched
characters. -/
def ciLit (lit s : List Char) : Option (List Char × List Char) :=
  let pre := s.take lit.length
  if pre.length = lit.length ∧ pre.map lowerCh = lit then some (pre, s.drop lit.length)
  else none

/-- Case-sensitive literal at the start of `s`. -/
def csLit (lit s : List Char) : Option (List Char × List Char) :=
  if isStartSeg lit s then some (lit, s.drop lit.length) else none

/-- Word boundary against the character following the match. -/
def boundaryAfter : List Char → Bool
  | [] => true
  | d :: _ => !wordChar d

/-- Anchored `\[([^\]]+)\]` (the tag regex). -/
def tagPatA (_ : Option Char) : List Char → Option (List Char × List Char)
  | [] => none
  | c :: rest =>
    if c = '[' then
      let body := rest.takeWhile (fun ch => ch ≠ ']')
      if body = [] then none
      else
        match rest.dropWhile (fun ch => ch ≠ ']') with
        | ']' :: r2 => some (c :: (body ++ [']']), r2)
        | _ => none
    else none

/-- Anchored `(?i)剧场版|theater|theatrical|movie|gekijouban|gekijōban`
(the Movie keyword rule), alternatives tried in the written order. -/
def moviePatA (_ : Option Char) (s : List Char) : Option (List Char × List Char) :=
  ciLit "剧场版".data s <|> ciLit "theater".data s <|> ciLit "theatrical".data s <|>
  ciLit "movie".data s <|> ciLit "gekijouban".data s <|> ciLit "gekijōban".data s

/-- Anchored `(?i)\bOAD\b` (the OAD keyword rule). -/
def oadPatA (prev : Option Char) (s : List Char) : Option (List Char × List Char) :=
  if boundaryBefore prev then
    match ciLit "oad".data s with
    | some (m, r) => if boundaryAfter r then some (m, r) else none
    | none => none
  else none

/-- Anchored `(?i)\bOVA\b` (the OVA keyword rule). -/
def ovaPatA (prev : Option Char) (s : List Char) : Option (List Char × List Char) :=
  if boundaryBefore prev then
    match ciLit "ova".data s with
    | some (m, r) => if boundaryAfter r then some (m, r) else none
    | none => none
  else none

/-- Anchored `(?i)\bSP\b|special|特典|特別|番外|总集篇|总集編` (the Special
keyword rule), alternatives tried in the written order. -/
def specialPatA (prev : Option Char) (s : List Char) : Option (List Char × List Char) :=
  (if boundaryBefore prev then
    match ciLit "sp".data s with
    | some (m, r) => if boundaryAfter r then some (m, r) else none
    | none => none
  else none) <|>
  ciLit "special".data s <|> csLit "特典".data s <|> csLit "特別".data s <|>
  csLit "番外".data s <|> csLit "总集篇".data s <|> csLit "总集編".data s

/-- Anchored `[Ss]eason\s*\d{1,2}` (first season-cleanup pattern). -/
def seasonWordCleanA (_ : Option Char) : List Char → Option (List Char × List Char)
  | [] => none
  | c :: rest =>
    if (c = 'S' ∨ c = 's') ∧ rest.take 5 = ['e', 'a', 's', 'o', 'n'] then
      let afterLit := rest.drop 5
      let sp := afterLit.takeWhile rustIsWhitespace
      let r1 := afterLit.dropWhile rustIsWhitespace
      match takeDigitsUpTo 2 r1 with
      | ([], _) => none
      | (ds, r2) => some (c :: (['e', 'a', 's', 'o', 'n'] ++ sp ++ ds), r2)
    else none

/-- Anchored `第\s*\d{1,2}\s*季` (second season-cleanup pattern). -/
def chineseSeasonCleanA (_ : Option Char) : List Char → Option (List Char × List Char)
  | [] => none
  | c :: rest =>
    if c = '第' then
      let sp1 := rest.takeWhile rustIsWhitespace
      let r1 := rest.dropWhile rustIsWhitespace
      match takeDigitsUpTo 2 r1 with
      | ([], _) => none
      | (ds, r2) =>
        let sp2 := r2.takeWhile rustIsWhitespace
        match r2.dropWhile rustIsWhitespace with
        | d :: r3 => if d = '季' then some (c :: (sp1 ++ ds ++ sp2 ++ [d]), r3) else none
        | [] => none
    else none

/-- Anchored `\b[IVX]+\b` (third season-cleanup pattern; unlike the season
matcher, any run of the class is removed, with no roman-table lookup). -/
def romanCleanA (prev : Option Char) (s : List Char) : Option (List Char × List Char) :=
  match s with
  | [] => none
  | c :: _ =>
    if isRomanChar c && boundaryBefore prev then
      let run := s.takeWhile isRomanChar
      let r1 := s.dropWhile isRomanChar
      if boundaryAfter r1 then some (run, r1) else none
    else none

/-- Anchored `[Ss]\d{1,2}(?:\s|[\]\[]|$)` (fourth season-cleanup pattern;
the whole match, including the delimiter, is replaced). -/
def sNumCleanA (_ : Option Char) : List Char → Option (List Char × List Char)
  | [] => none
  | c :: rest =>
    if c = 'S' ∨ c = 's' then
      match takeDigitsUpTo 2 rest with
      | ([], _) => none
      | (ds, r2) =>
        match r2 with
        | [] => some (c :: ds, [])
        | d :: r3 =>
          if rustIsWhitespace d ∨ d = ']' ∨ d = '[' then some (c :: (ds ++ [d]), r3)
          else none
    else none

/-- Anchored `_[Ss]\d{1,4}` (fifth season-cleanup pattern). -/
def underscoreCleanA (_ : Option Char) : List Char → Option (List Char × List Char)
  | u :: c :: rest =>
    if u = '_' ∧ (c = 'S' ∨ c = 's') then
      match takeDigitsUpTo 4 rest with
      | ([], _) => none
      | (ds, r2) => some (u :: c :: ds, r2)
    else none
  | _ => none

/-- Anchored `\([^)]*\)` (the parenthesis-removal pattern). -/
def parenPatA (_ : Option Char) : List Char → Option (List Char × List Char)
  | [] => none
  | c :: rest =>
    if c = '(' then
      let body := rest.takeWhile (fun ch => ch ≠ ')')
      match rest.dropWhile (fun ch => ch ≠ ')') with
      | ')' :: r2 => some (c :: (body ++ [')']), r2)
      | _ => none
    else none

/-- Anchored `\s+` (the whitespace-collapsing pattern). -/
def wsRunA (_ : Option Char) (s : List Char) : Option (List Char × List Char) :=
  let run := s.takeWhile rustIsWhitespace
  if run = [] then none else some (run, s.dropWhile rustIsWhitespace)

/-- `Regex::replace_all`: scan left to right, replacing each non-overlapping
leftmost match and resuming right after it.  All the source's patterns
consume at least one character, so fuel equal to the text length suffices. -/
def replaceAllGo (att : Option Char → List Char → Option (List Char × List Char))
    (repl : List Char) : Nat → Option Char → List Char → List Char
  | 0, _, cs => cs
  | _ + 1, _, [] => []
  | f + 1, prev, c :: rest =>
    match att prev (c :: rest) with
    | some (m, after) => repl ++ replaceAllGo att repl f m.getLast? after
    | none => c :: replaceAllGo att repl f (some c) rest

def runReplaceAll (att : Option Char → List Char → Option (List Char × List Char))
    (repl cs : List Char) : List Char :=
  replaceAllGo att repl cs.length none cs

/-- `Regex::is_match`: does the anchored pattern fire at any position? -/
def matchesAnywhere (att : Option Char → List Char → Option (List Char × List Char)) :
    Option Char → List Char → Bool
  | _, [] => false
  | prev, c :: rest => (att prev (c :: rest)).isSome || matchesAnywhere att (some c) rest

/-! ## FileParser (src/parser/mod.rs) -/

/-- Content-type classification (`EpisodeType`). -/
inductive EpisodeType where
  | Normal
  | OVA
  | OAD
  | Special
  | Movie
  deriving DecidableEq, Repr

/-- The parser's output record (`ParsedFile`). -/
structure ParsedFile where
  animeName : List Char
  episodeNumber : Nat
  seasonNumber : Option Nat
  episodeType : EpisodeType
  tags : List (List Char)
  extension : List Char
  isAlreadyFormatted : Bool
  deriving DecidableEq, Repr

/-- `tag_regex.captures_iter`: the inner texts of all non-overlapping
`\[([^\]]+)\]` matches, left to right. -/
def tagCapturesGo : Nat → List Char → List (List Char)
  | 0, _ => []
  | _ + 1, [] => []
  | f + 1, c :: rest =>
    if c = '[' then
      let body := rest.takeWhile (fun ch => ch ≠ ']')
      match rest.dropWhile (fun ch => ch ≠ ']') with
      | ']' :: r2 =>
        if body = [] then tagCapturesGo f rest
        else body :: tagCapturesGo f r2
      | _ => tagCapturesGo f rest
    else tagCapturesGo f rest

def tagCaptures (cs : List Char) : List (List Char) := tagCapturesGo cs.length cs

/-- The resolution-indicator alternatives `1080|720|480|2160|4K`, tried in
the written order (leftmost-first). -/
def resAlt (s : List Char) : Option (List Char × List Char) :=
  csLit "1080".data s <|> csLit "720".data s <|> csLit "480".data s <|>
  csLit "2160".data s <|> csLit "4K".data s

/-- `resolution_regex.captures_iter`: byte spans of all non-overlapping
matches of `\[(1080|720|480|2160|4K)[^\]]*\]`, left to right. -/
def resolutionSpansGo : Nat → Nat → List Char → List (Nat × Nat)
  | 0, _, _ => []
  | _ + 1, _, [] => []
  | f + 1, pos, c :: rest =>
    if c = '[' then
      match resAlt rest with
      | some (lit, r1) =>
        let body := r1.takeWhile (fun ch => ch ≠ ']')
        match r1.dropWhile (fun ch => ch ≠ ']') with
        | ']' :: r2 =>
          let len := 1 + utf8Len lit + utf8Len body + 1
          (pos, pos + len) :: resolutionSpansGo f (pos + len) r2
        | _ => resolutionSpansGo f (pos + c.utf8Size) rest
      | none => resolutionSpansGo f (pos + c.utf8Size) rest
    else resolutionSpansGo f (pos + c.utf8Size) rest

def resolutionSpans (cs : List Char) : List (Nat × Nat) := resolutionSpansGo cs.length 0 cs

/-- `detect_special_type`: the ordered keyword rules, first match wins,
default `Normal`. -/
def detectSpecialType (cs : List Char) : EpisodeType :=
  if matchesAnywhere moviePatA none cs then .Movie
  else if matchesAnywhere oadPatA none cs then .OAD
  else if matchesAnywhere ovaPatA none cs then .OVA
  else if matchesAnywhere specialPatA none cs then .Special
  else .Normal

/-- Anchored `\s+S\d{2}E\d{2}\s*` (the already-formatted check; the trailing
`\s*` always matches). -/
def alreadyFormattedA (_ : Option Char) (s : List Char) : Option (List Char × List Char) :=
  let ws := s.takeWhile rustIsWhitespace
  if ws = [] then none
  else
    match s.dropWhile rustIsWhitespace with
    | 'S' :: d1 :: d2 :: 'E' :: d3 :: d4 :: r =>
      if isDigitCh d1 && isDigitCh d2 && isDigitCh d3 && isDigitCh d4 then
        some (ws ++ 'S' :: d1 :: d2 :: 'E' :: d3 :: d4 :: [], r)
      else none
    | _ => none

def isAlreadyFormattedCheck (cs : List Char) : Bool :=
  matchesAnywhere alreadyFormattedA none cs

/-- `FileParser::extract_season`: run the season chain with no exclusions. -/
def extractSeason (cs : List Char) : Option Nat :=
  (executeChain seasonChain cs []).map (·.value)

/-- The exclusion list built by `FileParser::extract_episode`: the season
match's numeric span, if any, followed by every resolution-tag span. -/
def exclusionsOf (cs : List Char) : List (Nat × Nat) :=
  (match executeChain seasonChain cs [] with
   | some r => [(r.startPos, r.endPos)]
   | none => []) ++ resolutionSpans cs

/-- `FileParser::extract_episode`: run the episode chain under the exclusion
list, keeping the value and the matched text. -/
def extractEpisode (cs : List Char) : Option (Nat × List Char) :=
  (executeChain episodeChain cs (exclusionsOf cs)).map fun r => (r.value, r.matchedText)

/-- Separator characters trimmed by `clean_anime_name`. -/
def sepCh (c : Char) : Bool := c == '-' || c == '_' || c == '.'

def trimEndWhile (p : Char → Bool) (cs : List Char) : List Char :=
  (cs.reverse.dropWhile p).reverse

/-- Rust `str::trim`. -/
def rustTrim (cs : List Char) : List Char :=
  trimEndWhile rustIsWhitespace (cs.dropWhile rustIsWhitespace)

/-- Rust `str::trim_matches(|c| c == '-' || c == '_' || c == '.')`. -/
def trimSep (cs : List Char) : List Char :=
  trimEndWhile sepCh (cs.dropWhile sepCh)

/-- `FileParser::clean_anime_name`: strip bracket tags, blank out keyword and
season-shaped substrings and parenthetical groups, truncate at the first
full-width then half-width colon, trim separators, and collapse whitespace
runs — in exactly the source's order. -/
def cleanAnimeName (name : List Char) : List Char :=
  let n1 := runReplaceAll tagPatA [] name
  let n2 := runReplaceAll moviePatA [' '] n1
  let n3 := runReplaceAll oadPatA [' '] n2
  let n4 := runReplaceAll ovaPatA [' '] n3
  let n5 := runReplaceAll specialPatA [' '] n4
  let n6 := runReplaceAll seasonWordCleanA [' '] n5
  let n7 := runReplaceAll chineseSeasonCleanA [' '] n6
  let n8 := runReplaceAll romanCleanA [' '] n7
  let n9 := runReplaceAll sNumCleanA [' '] n8
  let n10 := runReplaceAll underscoreCleanA [' '] n9
  let n11 := runReplaceAll parenPatA [' '] n10
  let n12 := n11.takeWhile (fun ch => ch ≠ '：')
  let n13 := n12.takeWhile (fun ch => ch ≠ ':')
  let n14 := rustTrim (trimSep (rustTrim n13))
  let n15 := runReplaceAll wsRunA [' '] n14
  rustTrim n15

/-- Rust `str::replace` with a literal pattern (all occurrences). -/
def replaceAllLitGo (pat repl : List Char) : Nat → List Char → List Char
  | 0, cs => cs
  | _ + 1, [] => []
  | f + 1, c :: rest =>
    if isStartSeg pat (c :: rest) then repl ++ replaceAllLitGo pat repl f ((c :: rest).drop pat.length)
    else c :: replaceAllLitGo pat repl f rest

def replaceAllLit (pat repl cs : List Char) : List Char :=
  replaceAllLitGo pat repl cs.length cs

/-- Split `cs` around the first occurrence of `pat` (Rust `str::find` plus
the two slices the source takes at the found byte offset). -/
def splitFirstOccur (pat : List Char) : List Char → Option (List Char × List Char)
  | [] => if pat = [] then some ([], []) else none
  | c :: rest =>
    if isStartSeg pat (c :: rest) then some ([], (c :: rest).drop pat.length)
    else
      match splitFirstOccur pat rest with
      | some (pre, post) => some (c :: pre, post)
      | none => none

/-- Byte-offset suffix `&name[k..]` (only reached in the source through the
`unwrap_or(0)` fallback; the episode match's text always occurs in the stem,
so that fallback is never taken on the parser's own episode matches). -/
def byteDrop : Nat → List Char → List Char
  | 0, cs => cs
  | _, [] => []
  | k, c :: rest => byteDrop (k - c.utf8Size) rest

/-- The text the source removes from the stem: the episode match itself, and
— when the match ends with an opening parenthesis — everything through the
matching close parenthesis. -/
def removePatternOf (name mt : List Char) : List Char :=
  if mt.getLast? = some '(' then
    let afterMatch :=
      match splitFirstOccur mt name with
      | some p => p.2
      | none => byteDrop (utf8Len mt) name
    let upto := afterMatch.takeWhile (fun ch => ch ≠ ')')
    match afterMatch.dropWhile (fun ch => ch ≠ ')') with
    | ')' :: _ => mt ++ (upto ++ [')'])
    | _ => mt
  else mt

/-- Rust `str::parse::<u32>` on a tag: optional leading `+`, one or more
ASCII digits, value below `2^32`. -/
def parseU32 (cs : List Char) : Option Nat :=
  let ds := match cs with
    | '+' :: rest => rest
    | _ => cs
  if ds ≠ [] ∧ ds.all isDigitCh ∧ digitsVal ds < 4294967296 then some (digitsVal ds)
  else none

/-- Index of the episode tag: the first tag that parses as an integer and
does not contain a resolution indicator. -/
def episodeTagIdx (tags : List (List Char)) : Option Nat :=
  tags.findIdx? fun tag =>
    if containsSeg "1080".data tag || containsSeg "720".data tag ||
       containsSeg "480".data tag || containsSeg "2160".data tag ||
       containsSeg "4K".data tag then false
    else (parseU32 tag).isSome

/-- The candidate-title filter applied to the tags before the episode tag. -/
def candidateTagKeep (tag : List Char) : Bool :=
  let tagLower := tag.map lowerCh
  !containsSeg "字幕".data tagLower && !containsSeg "新番".data tagLower &&
  !containsSeg "1080".data tag && !containsSeg "720".data tag &&
  decide (2 < utf8Len tag)

/-- `Iterator::max_by_key` on byte length: the last maximal element. -/
def lastMaxByLen : List (List Char) → Option (List Char)
  | [] => none
  | t :: rest =>
    match lastMaxByLen rest with
    | none => some t
    | some b => if utf8Len t ≤ utf8Len b then some b else some t

/-- Rust `[&str]::join(" ")`. -/
def joinSpace : List (List Char) → List Char
  | [] => []
  | [t] => t
  | t :: rest => t ++ ' ' :: joinSpace rest

/-- The raw (pre-cleanup) title, following the source's two branches: via the
episode tag when one exists, else by removing the episode match (and a
trailing parenthetical) from the stem. -/
def deriveRawName (stem : List Char) (tags : List (List Char)) (episodeMatch : List Char) : List Char :=
  match episodeTagIdx tags with
  | some idx =>
    let candidateTags := (tags.take idx).filter candidateTagKeep
    if candidateTags ≠ [] then (lastMaxByLen candidateTags).getD []
    else if 0 < idx then joinSpace (tags.take idx)
    else stem
  | none => replaceAllLit (removePatternOf stem episodeMatch) [' '] stem

/-- `Path::file_name` (last normal path component). -/
def pathFileName (path : List Char) : Option (List Char) :=
  let comps := (path.splitOn '/').filter (fun c => ¬(c = [] ∨ c = ['.']))
  match comps.getLast? with
  | none => none
  | some last => if last = ['.', '.'] then none else some last

/-- Rust's split of a file name into stem and extension: split at the last
`.`, except that a lone leading dot starts the stem. -/
def fileStemExtSplit (fname : List Char) : List Char × List Char :=
  let r := fname.reverse
  let afterR := r.takeWhile (fun ch => ch ≠ '.')
  if afterR.length = fname.length then (fname, [])
  else
    match r.dropWhile (fun ch => ch ≠ '.') with
    | _ :: restR => if restR = [] then (fname, []) else (restR.reverse, afterR.reverse)
    | [] => (fname, [])

/-- The stem `FileParser::parse` works on, when the path has one. -/
def pathStem (filename : List Char) : Option (List Char) :=
  (pathFileName filename).map fun f => (fileStemExtSplit f).1

/-- `FileParser::parse`: the full pipeline, yielding a record exactly when
episode extraction succeeds and the cleaned title is non-empty. -/
def parseFile (filename : List Char) : Option ParsedFile :=
  match pathFileName filename with
  | none => none
  | some fname =>
    let stem := (fileStemExtSplit fname).1
    let extension := (fileStemExtSplit fname).2
    let tags := tagCaptures stem
    let episodeType := detectSpecialType stem
    let isAF := isAlreadyFormattedCheck stem
    let seasonNumber := extractSeason stem
    match extractEpisode stem with
    | none => none
    | some (episodeNumber, episodeMatch) =>
      let animeName := cleanAnimeName (deriveRawName stem tags episodeMatch)
      if animeName = [] then none
      else some ⟨animeName, episodeNumber, seasonNumber, episodeType, tags, extension, isAF⟩

/-! ## Chain ordering and execution (claim C3) -/

theorem mem_orderedInsertP {b m : MatcherFn} {l : List MatcherFn} :
    b ∈ orderedInsertP m l ↔ b = m ∨ b ∈ l := by
  induction l with
  | nil => simp [orderedInsertP]
  | cons x xs ih =>
    by_cases hc : m.priority < x.priority
    · simp [orderedInsertP, hc]
    · simp [orderedInsertP, hc, ih]
      tauto

theorem orderedInsertP_pairwise (m : MatcherFn) (l : List MatcherFn)
    (h : l.Pairwise fun a b => a.priority ≤ b.priority) :
    (orderedInsertP m l).Pairwise fun a b => a.priority ≤ b.priority := by
  induction l with
  | nil => simp [orderedInsertP]
  | cons x xs ih =>
    rw [List.pairwise_cons] at h
    obtain ⟨hx, hxs⟩ := h
    by_cases hc : m.priority < x.priority
    · rw [orderedInsertP, if_pos hc, List.pairwise_cons]
      refine ⟨?_, by rw [List.pairwise_cons]; exact ⟨hx, hxs⟩⟩
      intro b hb
      rcases List.mem_cons.mp hb with hb | hb
      · exact hb ▸ Nat.le_of_lt hc
      · exact Nat.le_trans (Nat.le_of_lt hc) (hx b hb)
    · rw [orderedInsertP, if_neg hc, List.pairwise_cons]
      refine ⟨?_, ih hxs⟩
      intro b hb
      rcases mem_orderedInsertP.mp hb with hb | hb
      · exact hb ▸ Nat.le_of_not_lt hc
      · exact hx b hb

theorem sortByPriority_append_singleton (l : List MatcherFn) (m : MatcherFn) :
    sortByPriority (l ++ [m]) = orderedInsertP m (sortByPriority l) := by
  simp [sortByPriority, List.foldl_append]

theorem sortByPriority_pairwise (l : List MatcherFn) :
    (sortByPriority l).Pairwise fun a b => a.priority ≤ b.priority := by
  suffices h : ∀ acc, acc.Pairwise (fun a b => a.priority ≤ b.priority) →
      (l.foldl (fun acc x => orderedInsertP x acc) acc).Pairwise fun a b => a.priority ≤ b.priority by
    exact h [] (by simp)
  induction l with
  | nil => intro acc hacc; simpa using hacc
  | cons x xs ih =>
    intro acc hacc
    exact ih (orderedInsertP x acc) (orderedInsertP_pairwise x acc hacc)

theorem orderedInsertP_append_of_all_le (m : MatcherFn) (l : List MatcherFn)
    (h : ∀ a ∈ l, a.priority ≤ m.priority) :
    orderedInsertP m l = l ++ [m] := by
  induction l with
  | nil => rfl
  | cons x xs ih =>
    have hx : ¬ m.priority < x.priority := Nat.not_lt.mpr (h x (by simp))
    rw [orderedInsertP, if_neg hx, ih fun a ha => h a (by simp [ha])]
    simp

theorem sortByPriority_sorted_id (l : List MatcherFn)
    (h : l.Pairwise fun a b => a.priority ≤ b.priority) : sortByPriority l = l := by
  induction l using List.reverseRecOn with
  | nil => rfl
  | append_singleton l m ih =>
    rw [sortByPriority_append_singleton]
    have hl : l.Pairwise fun a b => a.priority ≤ b.priority :=
      (List.pairwise_append.mp h).1
    rw [ih hl]
    refine orderedInsertP_append_of_all_le m l ?_
    intro a ha
    exact (List.pairwise_append.mp h).2.2 a ha m (by simp)

theorem sortByPriority_idem (l : List MatcherFn) :
    sortByPriority (sortByPriority l) = sortByPriority l :=
  sortByPriority_sorted_id _ (sortByPriority_pairwise l)

theorem buildChain_eq_sortByPriority (ms : List MatcherFn) :
    buildChain ms = sortByPriority ms := by
  induction ms using List.reverseRecOn with
  | nil => rfl
  | append_singleton l m ih =>
    rw [buildChain, List.foldl_append]
    show addMatcher (buildChain l) m = _
    rw [addMatcher, ih, sortByPriority_append_singleton, sortByPriority_append_singleton,
      sortByPriority_idem]

theorem filter_eq_nil_of_lt (xs : List MatcherFn) (p : Nat)
    (h : ∀ a ∈ xs, p < a.priority) :
    xs.filter (fun m => m.priority == p) = [] := by
  induction xs with
  | nil => rfl
  | cons x xs ih =>
    have hx : (x.priority == p) = false := by
      simp only [beq_eq_false_iff_ne, ne_eq]
      exact fun hcontra => absurd (hcontra ▸ h x (by simp)) (Nat.lt_irrefl p)
    simp [List.filter, hx, ih fun a ha => h a (by simp [ha])]

theorem filter_orderedInsertP (m : MatcherFn) (l : List MatcherFn) (p : Nat)
    (hl : l.Pairwise fun a b => a.priority ≤ b.priority) :
    (orderedInsertP m l).filter (fun x => x.priority == p) =
      l.filter (fun x => x.priority == p) ++ [m].filter (fun x => x.priority == p) := by
  induction l with
  | nil => simp [orderedInsertP]
  | cons x xs ih =>
    rw [List.pairwise_cons] at hl
    obtain ⟨hx, hxs⟩ := hl
    by_cases hc : m.priority < x.priority
    · rw [orderedInsertP, if_pos hc]
      by_cases hp : m.priority = p
      · have hnil : (x :: xs).filter (fun y => y.priority == p) = [] := by
          refine filter_eq_nil_of_lt _ p ?_
          intro a ha
          rcases List.mem_cons.mp ha with ha | ha
          · exact ha ▸ hp ▸ hc
          · exact Nat.lt_of_lt_of_le (hp ▸ hc) (hx a ha)
        rw [List.filter_cons, hnil]
        simp [hp]
      · rw [List.filter_cons]
        simp [hp]
    · rw [orderedInsertP, if_neg hc, List.filter_cons, List.filter_cons, ih hxs]
      by_cases hxp : x.priority = p <;> simp [hxp]

theorem sortByPriority_stable (l : List MatcherFn) (p : Nat) :
    (sortByPriority l).filter (fun m => m.priority == p) =
      l.filter (fun m => m.priority == p) := by
  induction l using List.reverseRecOn with
  | nil => rfl
  | append_singleton l m ih =>
    rw [sortByPriority_append_singleton,
      filter_orderedInsertP m _ p (sortByPriority_pairwise l), ih, ← List.filter_append]

/-- The candidate a matcher contributes to `execute`: its match, discarded
when the match overlaps an exclusion. -/
def survivorCandidate (text : List Char) (excl : List (Nat × Nat)) (m : MatcherFn) :
    Option MatchResult :=
  match m.tryMatch text with
  | some r => if overlapsAny r excl then none else some r
  | none => none

theorem executeChain_eq_head (chain : List MatcherFn) (text : List Char)
    (excl : List (Nat × Nat)) :
    executeChain chain text excl = (chain.filterMap (survivorCandidate text excl)).head? := by
  induction chain with
  | nil => rfl
  | cons m rest ih =>
    rw [executeChain, List.filterMap_cons]
    cases hm : m.tryMatch text with
    | some r =>
      by_cases ho : overlapsAny r excl
      · simp [survivorCandidate, hm, ho, ih]
      · simp [survivorCandidate, hm, ho]
    | none => simp [survivorCandidate, hm, ih]

/-- C3 theorem: a chain built by `add_matcher` is the stable sort of the
insertion sequence by priority (ascending, ties in insertion order — the
filter identity at each priority expresses stability), and `execute`
returns the first surviving candidate of that order, a candidate being a
matcher's match that overlaps no exclusion under the strict interval test. -/
theorem chain_execute_priority_order :
    ∀ (ms : List MatcherFn) (text : List Char) (excl : List (Nat × Nat)),
      buildChain ms = sortByPriority ms ∧
      ((sortByPriority ms).Pairwise fun a b => a.priority ≤ b.priority) ∧
      (∀ p : Nat, (sortByPriority ms).filter (fun m => m.priority == p) =
        ms.filter (fun m => m.priority == p)) ∧
      executeChain (buildChain ms) text excl =
        ((sortByPriority ms).filterMap (survivorCandidate text excl)).head? := by
  intro ms text excl
  refine ⟨buildChain_eq_sortByPriority ms, sortByPriority_pairwise ms,
    fun p => sortByPriority_stable ms p, ?_⟩
  rw [buildChain_eq_sortByPriority]
  exact executeChain_eq_head _ text excl

/-! ## Exclusion correctness (claim C4) -/

theorem executeChain_no_overlap (chain : List MatcherFn) (text : List Char)
    (excl : List (Nat × Nat)) (r : MatchResult)
    (h : executeChain chain text excl = some r) : overlapsAny r excl = false := by
  induction chain with
  | nil => simp [executeChain] at h
  | cons m rest ih =>
    rw [executeChain] at h
    cases hm : m.tryMatch text with
    | some r0 =>
      simp only [hm] at h
      by_cases ho : overlapsAny r0 excl
      · rw [if_pos ho] at h; exact ih h
      · rw [if_neg ho] at h
        cases h
        exact Bool.eq_false_iff.mpr ho
    | none => simp only [hm] at h; exact ih h

theorem overlapsAny_false_iff (r : MatchResult) (excl : List (Nat × Nat)) :
    overlapsAny r excl = false ↔
      ∀ p ∈ excl, ¬(r.startPos < p.2 ∧ p.1 < r.endPos) := by
  simp [overlapsAny, List.any_eq_false]

/-- C4 theorem: the episode chain's exclusion list contains the season
match's numeric span (when the season chain matches) and every
resolution-tag span, and the episode match selected under those exclusions
overlaps none of them — so the episode number is never read out of the
season digits or a resolution tag. -/
theorem episode_extraction_avoids_exclusions :
    ∀ (stem : List Char) (r : MatchResult),
      executeChain episodeChain stem (exclusionsOf stem) = some r →
      (∀ m : MatchResult, executeChain seasonChain stem [] = some m →
        (m.startPos, m.endPos) ∈ exclusionsOf stem ∧
        ¬(r.startPos < m.endPos ∧ m.startPos < r.endPos)) ∧
      (∀ p ∈ resolutionSpans stem,
        p ∈ exclusionsOf stem ∧ ¬(r.startPos < p.2 ∧ p.1 < r.endPos)) := by
  intro stem r h
  have hno := (overlapsAny_false_iff r (exclusionsOf stem)).mp
    (executeChain_no_overlap _ _ _ _ h)
  constructor
  · intro m hm
    have hmem : (m.startPos, m.endPos) ∈ exclusionsOf stem := by
      rw [exclusionsOf, hm]
      exact List.mem_append_left _ (by simp)
    exact ⟨hmem, hno _ hmem⟩
  · intro p hp
    have hmem : p ∈ exclusionsOf stem := by
      rw [exclusionsOf]
      exact List.mem_append_right _ hp
    exact ⟨hmem, hno p hmem⟩

/-- C4 witness: on the stem `foo S3 bar [1080p] 04` the episode chain picks
the trailing `04` (digit span `[19,21)`), which overlaps neither the season
digit span `(5,6)` nor the resolution-tag span `(11,18)`, both present in
the exclusion list. -/
theorem episode_extraction_avoids_exclusions_witness :
    (((5 : Nat), (6 : Nat)) ∈ exclusionsOf "foo S3 bar [1080p] 04".data ∧
      ¬((19 : Nat) < 6 ∧ 5 < 21)) ∧
    (((11 : Nat), (18 : Nat)) ∈ exclusionsOf "foo S3 bar [1080p] 04".data ∧
      ¬((19 : Nat) < 18 ∧ 11 < 21)) := by
  have h := episode_extraction_avoids_exclusions "foo S3 bar [1080p] 04".data
    ⟨4, [' ', '0', '4'], 19, 21⟩ (by decide)
  exact ⟨h.1 ⟨3, ['S', '3', ' '], 5, 6⟩ (by decide), h.2 (11, 18) (by decide)⟩

/-! ## The SxEy pattern (claim C2) -/

/-- C2 counterexample: the stem of `番剧名 S02E220.mkv` is matched by the
SxEy pattern (with S-digits 02 and E-digits 220), the parsed episode number
is 220, but the parsed `season_number` is `none`, not 2: the independent
season chain requires the season digits to be followed by whitespace, a
bracket or the end of the stem, which the adjacent `E` prevents. -/
theorem sxey_claim_counterexample :
    scanLeftmost sxEyAtt 0 "番剧名 S02E220".data =
      some ⟨220, "S02E220".data, 14, 17⟩ ∧
    parseFile "番剧名 S02E220.mkv".data =
      some ⟨"番剧名".data, 220, none, .Normal, [], "mkv".data, true⟩ := by
  constructor <;> decide

/-- C2 theorem (amended): whenever the SxEy matcher finds a match on the
stem and that match's digit span is not excluded (season span or resolution
tag), episode extraction returns exactly the E-digits value of that match —
SxEy has the lowest priority number, so it is consulted first.  The season
number, however, is produced by the separate season chain and can be absent
for such stems (see the counterexample). -/
theorem sxey_episode_when_not_excluded :
    ∀ (stem : List Char) (r : MatchResult),
      scanLeftmost sxEyAtt 0 stem = some r →
      overlapsAny r (exclusionsOf stem) = false →
      extractEpisode stem = some (r.value, r.matchedText) := by
  intro stem r h hov
  have h1 : executeChain episodeChain stem (exclusionsOf stem) = some r := by
    rw [show episodeChain = episodeMatchers from rfl, episodeMatchers]
    simp only [executeChain, h, hov]
    rfl
  rw [extractEpisode, h1]
  rfl

/-- C2 witness: on the stem `番剧名 S02E220` the SxEy match is unexcluded
and episode extraction returns its E-digits, 220. -/
theorem sxey_episode_when_not_excluded_witness :
    scanLeftmost sxEyAtt 0 "番剧名 S02E220".data =
      some ⟨220, "S02E220".data, 14, 17⟩ ∧
    extractEpisode "番剧名 S02E220".data = some (220, "S02E220".data) := by
  refine ⟨by decide, ?_⟩
  have h := sxey_episode_when_not_excluded "番剧名 S02E220".data
    ⟨220, "S02E220".data, 14, 17⟩ (by decide) (by decide)
  exact h

/-! ## Parse success conditions (claim C7) -/

/-- C7 theorem: for a filename with a stem, `parse` yields a record exactly
when episode extraction succeeds on the stem and the cleaned derived title
is non-empty; and any returned record carries a non-empty title (the
episode number is always present by the record's type).  Failure yields no
record at all. -/
theorem parse_record_iff :
    ∀ (filename stem : List Char), pathStem filename = some stem →
      (((parseFile filename).isSome) ↔
        (∃ ep mt, extractEpisode stem = some (ep, mt) ∧
          cleanAnimeName (deriveRawName stem (tagCaptures stem) mt) ≠ [])) ∧
      (∀ r, parseFile filename = some r → r.animeName ≠ []) := by
  intro filename stem h
  rw [pathStem] at h
  cases hf : pathFileName filename with
  | none => rw [hf] at h; simp at h
  | some fname =>
    rw [hf, Option.map_some'] at h
    have hstem : (fileStemExtSplit fname).1 = stem := by injection h
    subst hstem
    constructor
    · simp only [parseFile, hf]
      cases he : extractEpisode (fileStemExtSplit fname).1 with
      | none => simp [he]
      | some p =>
        obtain ⟨ep, mt⟩ := p
        by_cases hc : cleanAnimeName (deriveRawName (fileStemExtSplit fname).1
            (tagCaptures (fileStemExtSplit fname).1) mt) = []
        · simp [he, hc]
        · simp only [he]
          rw [if_neg hc]
          simp only [Option.isSome_some, true_iff]
          exact ⟨ep, mt, rfl, hc⟩
    · intro r hr
      simp only [parseFile, hf] at hr
      cases he : extractEpisode (fileStemExtSplit fname).1 with
      | none => simp only [he] at hr; exact Option.noConfusion hr
      | some p =>
        obtain ⟨ep, mt⟩ := p
        simp only [he] at hr
        split at hr
        · exact Option.noConfusion hr
        · rename_i hc
          intro hEq
          apply hc
          have h2 := Option.some.inj hr
          rw [← h2] at hEq
          simpa using hEq

/-- C7 witness: `foo - 07.mkv` has stem `foo - 07`; the equivalence and the
non-empty-title invariant hold there. -/
theorem parse_record_iff_witness :
    (((parseFile "foo - 07.mkv".data).isSome) ↔
      (∃ ep mt, extractEpisode "foo - 07".data = some (ep, mt) ∧
        cleanAnimeName (deriveRawName "foo - 07".data (tagCaptures "foo - 07".data) mt) ≠ [])) ∧
    (∀ r, parseFile "foo - 07.mkv".data = some r → r.animeName ≠ []) :=
  parse_record_iff "foo - 07.mkv".data "foo - 07".data (by decide)

/-! ## Matcher invariants: digit bounds and matched-text occurrence
(claims C9 and C10) -/

theorem digitsVal_lt_of_take {k : Nat} {cs ds rest : List Char}
    (h : takeDigitsUpTo k cs = (ds, rest)) : digitsVal ds < 10 ^ k := by
  have := digitsVal_takeDigitsUpTo_lt k cs
  rw [h] at this
  exact this

theorem take_append_of_take {k : Nat} {cs ds rest : List Char}
    (h : takeDigitsUpTo k cs = (ds, rest)) : ds ++ rest = cs := by
  have := takeDigitsUpTo_append k cs
  rw [h] at this
  exact this

theorem digitsVal_le9999_of_take {cs ds rest : List Char}
    (h : takeDigitsUpTo 4 cs = (ds, rest)) : digitsVal ds ≤ 9999 := by
  have h1 := digitsVal_lt_of_take h
  norm_num at h1
  omega

theorem digitsVal_le99_of_take {cs ds rest : List Char}
    (h : takeDigitsUpTo 2 cs = (ds, rest)) : digitsVal ds ≤ 99 := by
  have h1 := digitsVal_lt_of_take h
  norm_num at h1
  omega

theorem sxEyAtt_inv (pos : Nat) (s : List Char) (r : MatchResult)
    (h : sxEyAtt pos s = some r) :
    r.value ≤ 9999 ∧ r.matchedText ≠ [] ∧ ∃ rest, s = r.matchedText ++ rest := by
  cases s with
  | nil => simp [sxEyAtt] at h
  | cons c cs =>
    rcases htd1 : takeDigitsUpTo 2 cs with ⟨ds1, r1⟩
    cases ds1 with
    | nil => simp [sxEyAtt, htd1] at h
    | cons d1 ds1 =>
      cases r1 with
      | nil => simp [sxEyAtt, htd1] at h
      | cons e r2 =>
        rcases htd2 : takeDigitsUpTo 4 r2 with ⟨ds2, r3⟩
        cases ds2 with
        | nil => simp [sxEyAtt, htd1, htd2] at h
        | cons d2 ds2 =>
          simp only [sxEyAtt, htd1, htd2] at h
          split at h
          · split at h
            · cases h
              refine ⟨digitsVal_le9999_of_take htd2, by simp, r3, ?_⟩
              have h1 := take_append_of_take htd1
              have h2 := take_append_of_take htd2
              show c :: cs = (c :: ((d1 :: ds1) ++ e :: (d2 :: ds2))) ++ r3
              rw [← h1, ← h2]
              simp
            · exact Option.noConfusion h
          · exact Option.noConfusion h

theorem chineseEpisodeAtt_inv (pos : Nat) (s : List Char) (r : MatchResult)
    (h : chineseEpisodeAtt pos s = some r) :
    r.value ≤ 9999 ∧ r.matchedText ≠ [] ∧ ∃ rest, s = r.matchedText ++ rest := by
  cases s with
  | nil => simp [chineseEpisodeAtt] at h
  | cons c cs =>
    rcases htd : takeDigitsUpTo 4 (cs.dropWhile rustIsWhitespace) with ⟨ds, r2⟩
    cases ds with
    | nil => simp [chineseEpisodeAtt, htd] at h
    | cons d1 ds =>
      cases hdw : r2.dropWhile rustIsWhitespace with
      | nil => simp [chineseEpisodeAtt, htd, hdw] at h
      | cons d r4 =>
        simp only [chineseEpisodeAtt, htd, hdw] at h
        split at h
        · split at h
          · cases h
            refine ⟨digitsVal_le9999_of_take htd, by simp, r4, ?_⟩
            have h1 := List.takeWhile_append_dropWhile (p := rustIsWhitespace) (l := cs)
            have h2 := take_append_of_take htd
            have h3 := List.takeWhile_append_dropWhile (p := rustIsWhitespace) (l := r2)
            rw [hdw] at h3
            simp only [List.cons_append, List.append_assoc, List.nil_append,
              List.cons.injEq, true_and] at h2 ⊢
            rw [h3, h2, h1]
          · exact Option.noConfusion h
        · exact Option.noConfusion h

theorem epAtt_inv (pos : Nat) (s : List Char) (r : MatchResult)
    (h : epAtt pos s = some r) :
    r.value ≤ 9999 ∧ r.matchedText ≠ [] ∧ ∃ rest, s = r.matchedText ++ rest := by
  match s with
  | [] => simp [epAtt] at h
  | [c1] => simp [epAtt] at h
  | c1 :: c2 :: cs =>
    rcases htd : takeDigitsUpTo 4 (cs.dropWhile rustIsWhitespace) with ⟨ds, r2⟩
    cases ds with
    | nil => simp [epAtt, htd] at h
    | cons d1 ds =>
      simp only [epAtt, htd] at h
      split at h
      · cases h
        refine ⟨digitsVal_le9999_of_take htd, by simp, r2, ?_⟩
        have h1 := List.takeWhile_append_dropWhile (p := rustIsWhitespace) (l := cs)
        have h2 := take_append_of_take htd
        simp only [List.cons_append, List.append_assoc, List.cons.injEq, true_and] at h2 ⊢
        rw [h2, h1]
      · exact Option.noConfusion h

theorem eAtt_inv (pos : Nat) (s : List Char) (r : MatchResult)
    (h : eAtt pos s = some r) :
    r.value ≤ 9999 ∧ r.matchedText ≠ [] ∧ ∃ rest, s = r.matchedText ++ rest := by
  cases s with
  | nil => simp [eAtt] at h
  | cons c cs =>
    rcases htd : takeDigitsUpTo 4 cs with ⟨ds, r2⟩
    cases ds with
    | nil => simp [eAtt, htd] at h
    | cons d1 ds =>
      have h2 := take_append_of_take htd
      cases r2 with
      | nil =>
        simp only [eAtt, htd] at h
        split at h
        · cases h
          refine ⟨digitsVal_le9999_of_take htd, by simp, [], ?_⟩
          show c :: cs = (c :: (d1 :: ds)) ++ []
          rw [← h2]
          simp
        · exact Option.noConfusion h
      | cons d r3 =>
        simp only [eAtt, htd] at h
        split at h
        · split at h
          · exact Option.noConfusion h
          · cases h
            refine ⟨digitsVal_le9999_of_take htd, by simp, r3, ?_⟩
            show c :: cs = (c :: ((d1 :: ds) ++ [d])) ++ r3
            rw [← h2]
            simp
        · exact Option.noConfusion h

theorem bracketEpisodeAtt_inv (pos : Nat) (s : List Char) (r : MatchResult)
    (h : bracketEpisodeAtt pos s = some r) :
    r.value ≤ 9999 ∧ r.matchedText ≠ [] ∧ ∃ rest, s = r.matchedText ++ rest := by
  cases s with
  | nil => simp [bracketEpisodeAtt] at h
  | cons c cs =>
    rcases htd : takeDigitsUpTo 4 cs with ⟨ds, r2⟩
    cases ds with
    | nil => simp [bracketEpisodeAtt, htd] at h
    | cons d1 ds =>
      cases r2 with
      | nil => simp [bracketEpisodeAtt, htd] at h
      | cons d r3 =>
        simp only [bracketEpisodeAtt, htd] at h
        split at h
        · split at h
          · cases h
            refine ⟨digitsVal_le9999_of_take htd, by simp, r3, ?_⟩
            have h2 := take_append_of_take htd
            show c :: cs = (c :: ((d1 :: ds) ++ [d])) ++ r3
            rw [← h2]
            simp
          · exact Option.noConfusion h
        · exact Option.noConfusion h

theorem underscoreSAtt_inv (pos : Nat) (s : List Char) (r : MatchResult)
    (h : underscoreSAtt pos s = some r) :
    r.value ≤ 9999 ∧ r.matchedText ≠ [] ∧ ∃ rest, s = r.matchedText ++ rest := by
  match s with
  | [] => simp [underscoreSAtt] at h
  | [u] => simp [underscoreSAtt] at h
  | u :: c :: cs =>
    rcases htd : takeDigitsUpTo 4 cs with ⟨ds, r2⟩
    cases ds with
    | nil => simp [underscoreSAtt, htd] at h
    | cons d1 ds =>
      simp only [underscoreSAtt, htd] at h
      split at h
      · cases h
        refine ⟨digitsVal_le9999_of_take htd, by simp, r2, ?_⟩
        have h2 := take_append_of_take htd
        show u :: c :: cs = (u :: c :: (d1 :: ds)) ++ r2
        rw [← h2]
        simp
      · exact Option.noConfusion h

theorem delimiterAtt_inv (pos : Nat) (s : List Char) (r : MatchResult)
    (h : delimiterAtt pos s = some r) :
    r.value ≤ 9999 ∧ r.matchedText ≠ [] ∧ ∃ rest, s = r.matchedText ++ rest := by
  have hs := List.takeWhile_append_dropWhile (p := isDelimCh) (l := s)
  by_cases hrun : s.takeWhile isDelimCh = []
  · simp [delimiterAtt, hrun] at h
  · rcases htd : takeDigitsUpTo 4 (s.dropWhile isDelimCh) with ⟨ds, r2⟩
    cases ds with
    | nil => simp [delimiterAtt, hrun, htd] at h
    | cons d1 ds =>
      have h2 := take_append_of_take htd
      cases r2 with
      | nil =>
        simp only [delimiterAtt, hrun, htd, if_neg] at h
        split at h
        · exact Option.noConfusion h
        · cases h
          refine ⟨digitsVal_le9999_of_take htd, ?_, [], ?_⟩
          · simp [hrun]
          · simp only [List.append_nil] at h2 ⊢
            rw [show s.takeWhile isDelimCh ++ (d1 :: ds) =
              s.takeWhile isDelimCh ++ List.dropWhile isDelimCh s from
              congrArg (s.takeWhile isDelimCh ++ ·) h2, hs]
      | cons d r3 =>
        simp only [delimiterAtt, hrun, htd, if_neg] at h
        split at h
        · exact Option.noConfusion h
        · split at h
          · exact Option.noConfusion h
          · cases h
            refine ⟨digitsVal_le9999_of_take htd, ?_, r3, ?_⟩
            · simp [hrun]
            · simp only [List.cons_append, List.append_assoc, List.nil_append] at h2 ⊢
              rw [show s.takeWhile isDelimCh ++ (d1 :: (ds ++ d :: r3)) =
                s.takeWhile isDelimCh ++ List.dropWhile isDelimCh s from
                congrArg (s.takeWhile isDelimCh ++ ·) h2, hs]

theorem seasonNumberAtt_value (pos : Nat) (s : List Char) (r : MatchResult)
    (h : seasonNumberAtt pos s = some r) : r.value ≤ 99 := by
  cases s with
  | nil => simp [seasonNumberAtt] at h
  | cons c cs =>
    rcases htd : takeDigitsUpTo 2 cs with ⟨ds, r2⟩
    cases ds with
    | nil => simp [seasonNumberAtt, htd] at h
    | cons d1 ds =>
      cases r2 with
      | nil =>
        simp only [seasonNumberAtt, htd] at h
        split at h
        · cases h; exact digitsVal_le99_of_take htd
        · exact Option.noConfusion h
      | cons d r3 =>
        simp only [seasonNumberAtt, htd] at h
        split at h
        · split at h
          · cases h; exact digitsVal_le99_of_take htd
          · exact Option.noConfusion h
        · exact Option.noConfusion h

theorem seasonWordAtt_value (pos : Nat) (s : List Char) (r : MatchResult)
    (h : seasonWordAtt pos s = some r) : r.value ≤ 99 := by
  cases s with
  | nil => simp [seasonWordAtt] at h
  | cons c cs =>
    rcases htd : takeDigitsUpTo 2 ((cs.drop 5).dropWhile rustIsWhitespace) with ⟨ds, r2⟩
    cases ds with
    | nil => simp [seasonWordAtt, htd] at h
    | cons d1 ds =>
      simp only [seasonWordAtt, htd] at h
      split at h
      · cases h; exact digitsVal_le99_of_take htd
      · exact Option.noConfusion h

theorem chineseSeasonAtt_value (pos : Nat) (s : List Char) (r : MatchResult)
    (h : chineseSeasonAtt pos s = some r) : r.value ≤ 99 := by
  cases s with
  | nil => simp [chineseSeasonAtt] at h
  | cons c cs =>
    rcases htd : takeDigitsUpTo 2 (cs.dropWhile rustIsWhitespace) with ⟨ds, r2⟩
    cases ds with
    | nil => simp [chineseSeasonAtt, htd] at h
    | cons d1 ds =>
      cases hdw : r2.dropWhile rustIsWhitespace with
      | nil => simp [chineseSeasonAtt, htd, hdw] at h
      | cons d r4 =>
        simp only [chineseSeasonAtt, htd, hdw] at h
        split at h
        · split at h
          · cases h; exact digitsVal_le99_of_take htd
          · exact Option.noConfusion h
        · exact Option.noConfusion h

theorem ite_some_none_eq {α : Type} {c : Prop} [Decidable c] {a b : α}
    (h : (if c then some a else none) = some b) : a = b := by
  split at h
  · exact Option.some.inj h
  · exact Option.noConfusion h

set_option maxHeartbeats 2000000 in
theorem romanToNumber_le (cs : List Char) (v : Nat)
    (h : romanToNumber cs = some v) : v ≤ 10 := by
  unfold romanToNumber at h
  split_ifs at h <;> first
    | exact Option.noConfusion h
    | (cases h; norm_num)

theorem romanTryMatch_value (s : List Char) (r : MatchResult)
    (h : romanTryMatch s = some r) : r.value ≤ 99 := by
  unfold romanTryMatch at h
  split at h
  · exact Option.noConfusion h
  · rename_i pos run hfind
    split at h
    · exact Option.noConfusion h
    · rename_i v hrom
      have hv := romanToNumber_le run v hrom
      have heq : (⟨v, run, pos, pos + utf8Len run⟩ : MatchResult) = r := by
        dsimp only at h
        exact ite_some_none_eq h
      cases heq
      exact Nat.le_trans hv (by norm_num)

/-! ## Chain-level invariants -/

theorem executeChain_prop (P : MatchResult → Prop) (chain : List MatcherFn)
    (text : List Char) (excl : List (Nat × Nat))
    (hm : ∀ m ∈ chain, ∀ r, m.tryMatch text = some r → P r) :
    ∀ r, executeChain chain text excl = some r → P r := by
  induction chain with
  | nil => intro r h; simp [executeChain] at h
  | cons m rest ih =>
    intro r h
    rw [executeChain] at h
    cases hmt : m.tryMatch text with
    | some r0 =>
      simp only [hmt] at h
      by_cases ho : overlapsAny r0 excl
      · rw [if_pos ho] at h
        exact ih (fun m' hm' => hm m' (by simp [hm'])) r h
      · rw [if_neg ho] at h
        cases h
        exact hm m (by simp) r hmt
    | none =>
      simp only [hmt] at h
      exact ih (fun m' hm' => hm m' (by simp [hm'])) r h

theorem scan_inv_of_att {att : Nat → List Char → Option MatchResult}
    (hatt : ∀ pos s r, att pos s = some r →
      r.value ≤ 9999 ∧ r.matchedText ≠ [] ∧ ∃ rest, s = r.matchedText ++ rest) :
    ∀ cs r, scanLeftmost att 0 cs = some r →
      r.value ≤ 9999 ∧ r.matchedText ≠ [] ∧
        ∃ pre post, cs = pre ++ r.matchedText ++ post := by
  intro cs r h
  refine ⟨?_, ?_, ?_⟩
  · exact scanLeftmost_prop att (fun pos s r h => (hatt pos s r h).1) 0 cs r h
  · exact scanLeftmost_prop att (fun pos s r h => (hatt pos s r h).2.1) 0 cs r h
  · exact scanLeftmost_text att (fun pos s r h => (hatt pos s r h).2.2) 0 cs r h

theorem episodeChain_inv (text : List Char) (excl : List (Nat × Nat)) (r : MatchResult)
    (h : executeChain episodeChain text excl = some r) :
    r.value ≤ 9999 ∧ r.matchedText ≠ [] ∧
      ∃ pre post, text = pre ++ r.matchedText ++ post := by
  refine executeChain_prop (fun r => r.value ≤ 9999 ∧ r.matchedText ≠ [] ∧
    ∃ pre post, text = pre ++ r.matchedText ++ post) episodeChain text excl ?_ r h
  intro m hm r' hr'
  rw [show episodeChain = episodeMatchers from rfl, episodeMatchers] at hm
  simp only [List.mem_cons, List.not_mem_nil, or_false] at hm
  rcases hm with rfl | rfl | rfl | rfl | rfl | rfl | rfl
  · exact scan_inv_of_att sxEyAtt_inv text r' hr'
  · exact scan_inv_of_att chineseEpisodeAtt_inv text r' hr'
  · exact scan_inv_of_att epAtt_inv text r' hr'
  · exact scan_inv_of_att eAtt_inv text r' hr'
  · exact scan_inv_of_att bracketEpisodeAtt_inv text r' hr'
  · exact scan_inv_of_att underscoreSAtt_inv text r' hr'
  · exact scan_inv_of_att delimiterAtt_inv text r' hr'

theorem seasonChain_value (text : List Char) (excl : List (Nat × Nat)) (r : MatchResult)
    (h : executeChain seasonChain text excl = some r) : r.value ≤ 99 := by
  refine executeChain_prop (fun r => r.value ≤ 99) seasonChain text excl ?_ r h
  intro m hm r' hr'
  rw [show seasonChain = seasonMatchers from rfl, seasonMatchers] at hm
  simp only [List.mem_cons, List.not_mem_nil, or_false] at hm
  rcases hm with rfl | rfl | rfl | rfl
  · exact scanLeftmost_prop seasonNumberAtt seasonNumberAtt_value 0 text r' hr'
  · exact scanLeftmost_prop seasonWordAtt seasonWordAtt_value 0 text r' hr'
  · exact scanLeftmost_prop chineseSeasonAtt chineseSeasonAtt_value 0 text r' hr'
  · exact romanTryMatch_value text r' hr'

/-! ## Safety of the parser's internal slicing (claim C9) -/

theorem isStartSeg_append (pat post : List Char) : isStartSeg pat (pat ++ post) = true := by
  simp [isStartSeg, List.take_left]

theorem splitFirstOccur_isSome_of_startSeg (pat cs : List Char)
    (h : isStartSeg pat cs = true) : (splitFirstOccur pat cs).isSome := by
  cases cs with
  | nil =>
    have hp : pat = [] := by
      simpa [isStartSeg, eq_comm] using h
    simp [splitFirstOccur, hp]
  | cons c rest => simp [splitFirstOccur, h]

theorem splitFirstOccur_isSome_of_occurs (pat pre post : List Char) :
    ∀ cs, cs = pre ++ pat ++ post → (splitFirstOccur pat cs).isSome := by
  induction pre with
  | nil =>
    intro cs hcs
    subst hcs
    exact splitFirstOccur_isSome_of_startSeg pat _ (by simpa using isStartSeg_append pat post)
  | cons p pre ih =>
    intro cs hcs
    subst hcs
    simp only [List.append_assoc]
    by_cases hst : isStartSeg pat (p :: (pre ++ (pat ++ post)))
    · simp [splitFirstOccur, hst]
    · have hrec := ih (pre ++ pat ++ post) rfl
      simp only [List.append_assoc] at hrec
      cases hq : splitFirstOccur pat (pre ++ (pat ++ post)) with
      | none => rw [hq] at hrec; simp at hrec
      | some q => simp [splitFirstOccur, hst, hq]

/-- C9 theorem: any episode match the parser extracts has non-empty matched
text that occurs verbatim in the stem, so `str::find` on the stem always
succeeds for it — the `unwrap_or(0)` fallback and the byte slice
`&name[start + len..]` taken inside `parse` are therefore always in bounds
(and every function of the embedding is total: malformed input yields
`none`, never a fault). -/
theorem episode_match_occurs_in_stem :
    ∀ (stem : List Char) (v : Nat) (mt : List Char),
      extractEpisode stem = some (v, mt) →
      mt ≠ [] ∧ (∃ pre post, stem = pre ++ mt ++ post) ∧
        (splitFirstOccur mt stem).isSome := by
  intro stem v mt h
  rw [extractEpisode] at h
  cases he : executeChain episodeChain stem (exclusionsOf stem) with
  | none => rw [he] at h; exact Option.noConfusion h
  | some rr =>
    rw [he, Option.map_some'] at h
    have hp := Prod.mk.injEq .. ▸ Option.some.inj h
    have hmt : rr.matchedText = mt := congrArg Prod.snd (Option.some.inj h)
    have hinv := episodeChain_inv stem (exclusionsOf stem) rr he
    rw [hmt] at hinv
    obtain ⟨pre, post, hocc⟩ := hinv.2.2
    exact ⟨hinv.2.1, ⟨pre, post, hocc⟩,
      splitFirstOccur_isSome_of_occurs mt pre post stem hocc⟩

/-- C9 witness: on the stem `foo - 07` the delimiter matcher extracts
`" - 07"`, which is non-empty, occurs in the stem, and is found by
`splitFirstOccur`. -/
theorem episode_match_occurs_in_stem_witness :
    extractEpisode "foo - 07".data = some (7, " - 07".data) ∧
    (" - 07".data ≠ [] ∧ (∃ pre post, "foo - 07".data = pre ++ " - 07".data ++ post) ∧
      (splitFirstOccur " - 07".data "foo - 07".data).isSome) :=
  ⟨by decide, episode_match_occurs_in_stem "foo - 07".data 7 " - 07".data (by decide)⟩

/-! ## Value bounds of parsed records (claim C10) -/

/-- C10 theorem: every record the parser returns has an episode number of at
most 9999 (each episode matcher captures at most four digits) and, when a
season number is present, at most 99 (the digit matchers capture at most
two digits and the roman table tops out at 10). -/
theorem parse_value_bounds :
    ∀ (filename : List Char) (r : ParsedFile), parseFile filename = some r →
      r.episodeNumber ≤ 9999 ∧ ∀ sn, r.seasonNumber = some sn → sn ≤ 99 := by
  intro fn r h
  simp only [parseFile] at h
  cases hf : pathFileName fn with
  | none => rw [hf] at h; exact Option.noConfusion h
  | some fname =>
    rw [hf] at h
    cases he : extractEpisode (fileStemExtSplit fname).1 with
    | none => simp only [he] at h; exact Option.noConfusion h
    | some p =>
      obtain ⟨ep, mt⟩ := p
      simp only [he] at h
      split at h
      · exact Option.noConfusion h
      · have h2 := Option.some.inj h
        have hep : ep ≤ 9999 := by
          rw [extractEpisode] at he
          cases hee : executeChain episodeChain (fileStemExtSplit fname).1
              (exclusionsOf (fileStemExtSplit fname).1) with
          | none => rw [hee] at he; exact Option.noConfusion he
          | some rr =>
            rw [hee, Option.map_some'] at he
            have hval : rr.value = ep := congrArg Prod.fst (Option.some.inj he)
            rw [← hval]
            exact (episodeChain_inv _ _ rr hee).1
        constructor
        · have hEq := congrArg ParsedFile.episodeNumber h2
          simp only [ParsedFile.episodeNumber] at hEq
          exact hEq ▸ hep
        · intro sn hsn
          have hEq := congrArg ParsedFile.seasonNumber h2
          simp only [ParsedFile.seasonNumber] at hEq
          rw [← hEq] at hsn
          rw [extractSeason] at hsn
          cases hse : executeChain seasonChain (fileStemExtSplit fname).1 [] with
          | none => rw [hse] at hsn; exact Option.noConfusion hsn
          | some sr =>
            rw [hse, Option.map_some'] at hsn
            have hval : sr.value = sn := Option.some.inj hsn
            rw [← hval]
            exact seasonChain_value _ _ sr hse

/-- C10 witness: `foo S3 - 04.mkv` parses to season 3 and episode 4, within
both bounds. -/
theorem parse_value_bounds_witness :
    parseFile "foo S3 - 04.mkv".data =
      some ⟨"foo".data, 4, some 3, .Normal, [], "mkv".data, false⟩ ∧
    ((4 : Nat) ≤ 9999 ∧ ∀ sn, (some 3 : Option Nat) = some sn → sn ≤ 99) :=
  ⟨by decide, parse_value_bounds "foo S3 - 04.mkv".data
    ⟨"foo".data, 4, some 3, .Normal, [], "mkv".data, false⟩ (by decide)⟩

/-! ## The per-file season/episode dispatch of `main` (claim C5) -/

/-- The content types that share the season-0 special counter. -/
def isSpecialLike : EpisodeType → Bool
  | .OVA | .OAD | .Special => true
  | _ => false

/-- The `match parsed.episode_type` block of the renaming loop in
src/main.rs: `none` models `continue` (Movie, or an unresolvable normal
episode). -/
def assignSeasonEpisode (normalSeasons : List Season) (seasonZero : Bool)
    (counter : Nat) (p : ParsedFile) : Option (Nat × Nat) :=
  match p.episodeType with
  | .Normal =>
    match p.seasonNumber with
    | some s => some (s, p.episodeNumber)
    | none => mapEpisodeToSeason p.episodeNumber normalSeasons
  | .OVA | .Special =>
    some (if seasonZero then (0, counter) else (0, p.episodeNumber))
  | .Movie => none
  | .OAD =>
    some (if seasonZero then (0, counter) else (0, p.episodeNumber))

/-- The renaming loop of src/main.rs: thread `special_counter` through the
batch, incrementing it after every non-Normal file that was not skipped. -/
def processFiles (normalSeasons : List Season) (seasonZero : Bool) :
    Nat → List ParsedFile → List (Nat × Nat)
  | _, [] => []
  | counter, p :: rest =>
    match assignSeasonEpisode normalSeasons seasonZero counter p with
    | none => processFiles normalSeasons seasonZero counter rest
    | some se =>
      se :: processFiles normalSeasons seasonZero
        (if p.episodeType ≠ .Normal then counter + 1 else counter) rest

/-- The batch entry point of `main`: filter the positive seasons, detect a
season-0 descriptor, and start the special counter at 1. -/
def renameAssignments (files : List ParsedFile) (seasons : List Season) :
    List (Nat × Nat) :=
  processFiles (seasons.filter fun s => decide (0 < s.season_number))
    ((seasons.find? fun s => s.season_number == 0).isSome) 1 files

/-- Number of OVA/OAD/Special items strictly before index `i`. -/
def specialsBefore (files : List ParsedFile) (i : Nat) : Nat :=
  ((files.take i).filter fun p => isSpecialLike p.episodeType).length

/-- The claim's per-item description of the dispatch, phrased without a
threaded counter: item `i`'s counter value is one more than the number of
special items before it. -/
def specDispatch (normalSeasons : List Season) (seasonZero : Bool)
    (files : List ParsedFile) (c : Nat) (ip : Nat × ParsedFile) : Option (Nat × Nat) :=
  match ip.2.episodeType with
  | .Normal =>
    match ip.2.seasonNumber with
    | some s => some (s, ip.2.episodeNumber)
    | none => mapEpisodeToSeason ip.2.episodeNumber normalSeasons
  | .Movie => none
  | _ => some (if seasonZero then (0, c + specialsBefore files ip.1)
      else (0, ip.2.episodeNumber))

theorem specialsBefore_zero (files : List ParsedFile) : specialsBefore files 0 = 0 := by
  simp [specialsBefore]

theorem specialsBefore_cons_succ (p : ParsedFile) (rest : List ParsedFile) (i : Nat) :
    specialsBefore (p :: rest) (i + 1) =
      (if isSpecialLike p.episodeType then 1 else 0) + specialsBefore rest i := by
  simp only [specialsBefore, List.take_succ_cons, List.filter_cons]
  split <;> simp [Nat.add_comm]

theorem specDispatch_shift (ns : List Season) (sz : Bool) (p : ParsedFile)
    (rest : List ParsedFile) (c i : Nat) (q : ParsedFile) :
    specDispatch ns sz (p :: rest) c (i + 1, q) =
      specDispatch ns sz rest (if isSpecialLike p.episodeType then c + 1 else c) (i, q) := by
  have hsb := specialsBefore_cons_succ p rest i
  cases hq : q.episodeType <;>
    simp [specDispatch, hq, hsb] <;>
    by_cases hp : isSpecialLike p.episodeType <;>
    simp [hp, Nat.add_comm, Nat.add_assoc, Nat.add_left_comm]

theorem assignSeasonEpisode_eq_specDispatch_zero (ns : List Season) (sz : Bool)
    (c : Nat) (p : ParsedFile) (files : List ParsedFile) :
    assignSeasonEpisode ns sz c p = specDispatch ns sz files c (0, p) := by
  cases hp : p.episodeType <;>
    simp [assignSeasonEpisode, specDispatch, hp, specialsBefore_zero]

theorem assignSeasonEpisode_isSpecial_of_some (ns : List Season) (sz : Bool)
    (c : Nat) (p : ParsedFile) :
    p.episodeType ≠ .Normal → (assignSeasonEpisode ns sz c p).isSome →
      isSpecialLike p.episodeType := by
  intro hn hs
  cases hp : p.episodeType <;> simp_all [assignSeasonEpisode, isSpecialLike, hp]

theorem processFiles_eq_spec (ns : List Season) (sz : Bool) :
    ∀ (files : List ParsedFile) (c : Nat),
      processFiles ns sz c files = files.enum.filterMap (specDispatch ns sz files c) := by
  intro files
  induction files with
  | nil => intro c; simp [processFiles]
  | cons p rest ih =>
    intro c
    rw [processFiles, List.enum_cons', List.filterMap_cons, List.filterMap_map]
    have htail : rest.enum.filterMap
        ((specDispatch ns sz (p :: rest) c) ∘ Prod.map (· + 1) id) =
        rest.enum.filterMap
          (specDispatch ns sz rest (if isSpecialLike p.episodeType then c + 1 else c)) := by
      refine List.filterMap_congr ?_
      intro iq _
      obtain ⟨i, q⟩ := iq
      show specDispatch ns sz (p :: rest) c (i + 1, q) = _
      exact specDispatch_shift ns sz p rest c i q
    rw [← assignSeasonEpisode_eq_specDispatch_zero ns sz c p (p :: rest)]
    cases ha : assignSeasonEpisode ns sz c p with
    | none =>
      rw [ih c, htail]
      cases hp : p.episodeType <;> simp_all [assignSeasonEpisode, isSpecialLike]
    | some se =>
      by_cases hn : p.episodeType = .Normal
      · have : ¬ isSpecialLike p.episodeType := by simp [isSpecialLike, hn]
        simp only [hn, ne_eq, not_true_eq_false, if_neg, ite_false, this, if_false]
        rw [ih c]
        rw [htail]
        simp [this]
      · have hsp : isSpecialLike p.episodeType :=
          assignSeasonEpisode_isSpecial_of_some ns sz c p hn (by simp [ha])
        simp only [ne_eq, hn, not_false_iff, if_pos, ite_true]
        rw [ih (c + 1)]
        rw [htail]
        simp [hsp]

/-- C5 theorem: the batch dispatch is, item by item: a Normal record with an
explicit season uses it directly (the resolver is bypassed); a Normal
record without one goes through the resolver over the positive seasons (and
is skipped when unresolvable); OVA/OAD/Special records get season 0 with a
shared counter equal to one plus the number of special items before them
when a season-0 descriptor exists, and their own episode number otherwise;
Movie records are excluded (and do not advance the counter).  The concrete
batch instance shows a skipped Movie between two specials. -/
theorem batch_dispatch_characterization :
    (∀ (files : List ParsedFile) (seasons : List Season),
      renameAssignments files seasons =
        files.enum.filterMap
          (specDispatch (seasons.filter fun s => decide (0 < s.season_number))
            ((seasons.find? fun s => s.season_number == 0).isSome) files 1)) ∧
    renameAssignments
      [⟨"a".data, 5, some 2, .Normal, [], "mkv".data, false⟩,
       ⟨"b".data, 9, none, .OVA, [], "mkv".data, false⟩,
       ⟨"c".data, 1, none, .Movie, [], "mkv".data, false⟩,
       ⟨"d".data, 7, none, .OAD, [], "mkv".data, false⟩]
      [⟨0, 3⟩, ⟨1, 12⟩] = [(2, 5), (0, 1), (0, 2)] := by
  constructor
  · intro files seasons
    exact processFiles_eq_spec _ _ files 1
  · decide

/-! ## Title-cleanup idempotence (claim C8) -/

/-- C8 counterexample: cleanup is not idempotent.  On `"S1S2 a"` the first
pass removes the trailing season token `S2 ` and leaves `"S1 a"`, exposing
a new season-shaped token that a second pass removes, leaving `"a"`. -/
theorem cleanup_not_idempotent :
    cleanAnimeName "S1S2 a".data = "S1 a".data ∧
    cleanAnimeName (cleanAnimeName "S1S2 a".data) = "a".data ∧
    cleanAnimeName (cleanAnimeName "S1S2 a".data) ≠ cleanAnimeName "S1S2 a".data := by
  refine ⟨by decide, by decide, by decide⟩

/-- C8 theorem (amended): cleanup is a no-op on any string it has already
reduced to a fixed point — in particular re-cleaning changes nothing
whenever one pass removed nothing — and on the repository's own example the
cleaned title is such a fixed point; but cleanup is not idempotent on every
input (see the counterexample). -/
theorem cleanup_idempotent_on_fixpoints :
    (∀ s, cleanAnimeName s = s → cleanAnimeName (cleanAnimeName s) = cleanAnimeName s) ∧
    cleanAnimeName (cleanAnimeName "[字幕组] 鬼灭之刃 28 [1080p]".data) =
      cleanAnimeName "[字幕组] 鬼灭之刃 28 [1080p]".data := by
  constructor
  · intro s hs
    rw [hs]
    exact hs
  · decide

/-- C8 witness: `"abc"` is already clean, and re-cleaning it is a no-op. -/
theorem cleanup_idempotent_on_fixpoints_witness :
    cleanAnimeName "abc".data = "abc".data ∧
    cleanAnimeName (cleanAnimeName "abc".data) = cleanAnimeName "abc".data :=
  ⟨by decide, cleanup_idempotent_on_fixpoints.1 "abc".data (by decide)⟩

end AnimeRenamer
